import Mathlib

/-!
Verification development for the Mock2CSV record serialization and
streaming engine (`src/Mock2CSV.ts`).

Strings are modelled as `List Char`.  The JavaScript string primitives
used by the source (`String.prototype.includes`, `String.prototype.replaceAll`,
`String.prototype.slice(0, -1)`) are embedded as executable functions on
`List Char`; `slice(0, -1)` is `List.dropLast`.  TypeScript `number`
record counts are modelled as `Int`; the loop `for (let i = 0; i < n; i++)`
executes `n.toNat` iterations.
-/

namespace Mock2CSV

abbrev Str := List Char

/-- Boolean test that `p` is a leading segment of `s` (character-wise). -/
def isPre (p s : Str) : Bool :=
  match p, s with
  | [], _ => true
  | _ :: _, [] => false
  | a :: p', b :: s' => a == b && isPre p' s'

/-- JS `s.includes(p)`: `p` occurs as a contiguous substring of `s`.
The empty pattern is contained in every string. -/
def jsIncludes (p s : Str) : Bool :=
  isPre p s ||
  match s with
  | [] => false
  | _ :: s' => jsIncludes p s'

/-- Fuel-driven left-to-right scanner implementing JS
`s.replaceAll(p, r)` for a nonempty pattern `p`: at each position,
if `p` matches, emit `r` and skip `p.length` characters, otherwise
keep one character and advance.  The fuel is only a structural
termination device; `repl` always supplies enough. -/
def replGo (p r : Str) : Nat → Str → Str
  | _, [] => []
  | 0, s => s
  | fuel + 1, c :: s =>
    if isPre p (c :: s) then r ++ replGo p r fuel (s.drop (p.length - 1))
    else c :: replGo p r fuel s

/-- JS `s.replaceAll(p, r)` for nonempty `p` (canonical fuel). -/
def repl (p r s : Str) : Str := replGo p r s.length s

/-- JS `s.replaceAll(p, r)`.  For the empty pattern, JS matches at every
character boundary: `"ab".replaceAll("", "x") = "xaxbx"`. -/
def jsReplaceAll (p r s : Str) : Str :=
  match p with
  | [] => r ++ s.flatMap (fun c => c :: r)
  | _ :: _ => repl p r s

/-- The `Options` bundle of `Mock2CSV.ts` (lines 24-31). -/
structure Config where
  header : Bool
  delimiter : Str
  quote : Str
  escape : Str
  newLine : Str
  logging : Bool

/-- `DefaultOptions` (lines 33-40). -/
def defaultConfig : Config :=
  { header := true, delimiter := ",".data, quote := "\"".data,
    escape := "\"".data, newLine := "\n".data, logging := false }

/-- A schema: ordered column names plus, for every column name, the value
its generator returns on its `i`-th invocation within one generation call
(generators may be stateful, so the value may depend on `i`). -/
structure Schema where
  keys : List Str
  gen : Str → Nat → Str

/-- The escaping step of `getLineString` (lines 278-284): if the value
contains the quote, replace every occurrence of the quote by
escape + quote; otherwise the value is left untouched. -/
def escapeValue (cfg : Config) (v : Str) : Str :=
  if jsIncludes cfg.quote v then
    jsReplaceAll cfg.quote (cfg.escape ++ cfg.quote) v
  else v

/-- `getLineString` (lines 275-290): append quote+value+quote+delimiter
per value, drop the last character (`line.slice(0, -1)`), append newLine. -/
def getLineString (cfg : Config) (values : List Str) : Str :=
  ((values.foldl
      (fun line v => line ++ cfg.quote ++ escapeValue cfg v ++ cfg.quote ++ cfg.delimiter)
      []).dropLast) ++ cfg.newLine

/-- `getHeaderLine` (lines 292-294): the line of the schema's keys. -/
def getHeaderLine (cfg : Config) (sch : Schema) : Str :=
  getLineString cfg sch.keys

/-- `getRecordLine` (lines 296-298) at the `i`-th record of a call:
`Object.keys(schema).map((key) => schema[key]())`. -/
def getRecordLine (cfg : Config) (sch : Schema) (i : Nat) : Str :=
  getLineString cfg (sch.keys.map (fun k => sch.gen k i))

/-- `generateRecordString` (lines 159-166): concatenate `n` record lines,
starting from the empty string; no header line is involved. -/
def generateRecordString (cfg : Config) (sch : Schema) (n : Nat) : Str :=
  (List.range n).foldl (fun acc i => acc ++ getRecordLine cfg sch i) []

/-- The sequence of `stream.write` payloads issued by
`writeRecordsToStream` (lines 244-256): the header line when
`options.header` is set, then one record line per loop iteration. -/
def writeRecordsToStream (cfg : Config) (sch : Schema) (n : Nat) : List Str :=
  (if cfg.header then [getHeaderLine cfg sch] else []) ++
    (List.range n).map (getRecordLine cfg sch)

/-- The full text delivered to the sink. -/
def csvOutput (cfg : Config) (sch : Schema) (n : Nat) : Str :=
  (writeRecordsToStream cfg sch n).flatten

/-- `generateRecordString` with its TypeScript `number` count: a negative
count makes the loop guard fail immediately. -/
def generateRecordStringI (cfg : Config) (sch : Schema) (recordNum : Int) : Str :=
  generateRecordString cfg sch recordNum.toNat

/-- `writeRecordsToStream` with its TypeScript `number` count. -/
def writeRecordsToStreamI (cfg : Config) (sch : Schema) (recordNum : Int) : List Str :=
  writeRecordsToStream cfg sch recordNum.toNat

/-- The error taxonomy of the specification (section 7). -/
inductive GenError where
  | invalidArgument
deriving DecidableEq

/-- `generateRecordString` with the failure channel the specification
claims for negative counts.  The source body (lines 159-166) contains no
validation and no throw statement on any path, so the result is always
`Except.ok` of the loop's product. -/
def generateRecordStringE (cfg : Config) (sch : Schema) (recordNum : Int) :
    Except GenError Str :=
  Except.ok (generateRecordStringI cfg sch recordNum)

/-- `writeRecordsToStream` with the claimed failure channel; the source
(lines 244-256) likewise contains no validation and no throw statement. -/
def writeRecordsToStreamE (cfg : Config) (sch : Schema) (recordNum : Int) :
    Except GenError (List Str) :=
  Except.ok (writeRecordsToStreamI cfg sch recordNum)

/-- Observable events of one generation call: sink writes, sink
finalization (`stream.end()`), console messages, and the reporting
events of the two writer versions.  `progress` is produced only by the
legacy writer (`src/unnamed/part_001`, `writeProgress`); `generating`
and `endSummary` abstract `this.log(...)` and `logEndMessage` of the
current writer. -/
inductive WriterEvent where
  | sinkWrite (chunk : Str)
  | sinkEnd
  | consoleMsg
  | progress (current total : Int)
  | generating (n : Int)
  | endSummary
deriving DecidableEq

/-- Event trace of `generate` (lines 87-101): log the start message when
logging is enabled, write header and records, `stream.end()`, and on the
stream's finish event log the end summary. -/
def generateEvents (cfg : Config) (sch : Schema) (recordNum : Int) : List WriterEvent :=
  (if cfg.logging then [WriterEvent.generating recordNum] else []) ++
    (writeRecordsToStreamI cfg sch recordNum).map WriterEvent.sinkWrite ++
    [WriterEvent.sinkEnd] ++
    (if cfg.logging then [WriterEvent.endSummary] else [])

/-- Event trace of `generateToStream` (lines 139-146): log the start
message when logging is enabled and write header and records; the
caller-supplied stream is never ended. -/
def generateToStreamEvents (cfg : Config) (sch : Schema) (recordNum : Int) : List WriterEvent :=
  (if cfg.logging then [WriterEvent.generating recordNum] else []) ++
    (writeRecordsToStreamI cfg sch recordNum).map WriterEvent.sinkWrite

/-- `getLineString` of the legacy writer (`src/unnamed/part_001`,
lines 128-136): same shape, but with no escaping step. -/
def legacyGetLineString (cfg : Config) (values : List Str) : Str :=
  ((values.foldl
      (fun line v => line ++ cfg.quote ++ v ++ cfg.quote ++ cfg.delimiter)
      []).dropLast) ++ cfg.newLine

/-- Event trace of the legacy `generate` (`src/unnamed/part_001`,
lines 88-114): start message, optional header, then per record a write
followed by a progress report whenever `i % 10000 === 0`, then
`stream.end()`, a final progress report at (recordNum, recordNum), and
the closing console message.  There is no logging option: reporting is
unconditional. -/
def legacyGenerateEvents (cfg : Config) (sch : Schema) (recordNum : Int) : List WriterEvent :=
  [WriterEvent.consoleMsg] ++
    (if cfg.header then [WriterEvent.sinkWrite (legacyGetLineString cfg sch.keys)] else []) ++
    ((List.range recordNum.toNat).flatMap (fun i =>
      [WriterEvent.sinkWrite (legacyGetLineString cfg (sch.keys.map (fun k => sch.gen k i)))] ++
        (if i % 10000 = 0 then [WriterEvent.progress (i : Int) recordNum] else []))) ++
    [WriterEvent.sinkEnd, WriterEvent.progress recordNum recordNum, WriterEvent.consoleMsg]

/-- The (current, total) pairs of the progress reports in a trace. -/
def progressReports (events : List WriterEvent) : List (Int × Int) :=
  events.filterMap (fun e =>
    match e with
    | WriterEvent.progress c t => some (c, t)
    | _ => none)

/-- Modelled from the spec: "After processing all values, remove the
single trailing delimiter (the last character(s) appended beyond the
final value), then append newLine" (section 4.1) — the quoted values
joined by the delimiter, followed by newLine.  Stated for comparison
with `getLineString`, which the source implements. -/
def specFormatLine (cfg : Config) (values : List Str) : Str :=
  (List.intercalate cfg.delimiter
    (values.map (fun v => cfg.quote ++ escapeValue cfg v ++ cfg.quote))) ++ cfg.newLine

/-! ## Core lemmas about the embedded string primitives -/

lemma isPre_append_self (p w : Str) : isPre p (p ++ w) = true := by
  induction p with
  | nil => rfl
  | cons a p' ih => simp [isPre, ih]

lemma isPre_iff (p s : Str) : isPre p s = true ↔ ∃ t, s = p ++ t := by
  induction p generalizing s with
  | nil => simp [isPre]
  | cons a p' ih =>
    cases s with
    | nil => simp [isPre]
    | cons b s' =>
      simp only [isPre, Bool.and_eq_true, beq_iff_eq, ih]
      constructor
      · rintro ⟨rfl, t, rfl⟩
        exact ⟨t, rfl⟩
      · rintro ⟨t, ht⟩
        injection ht with h1 h2
        exact ⟨h1.symm, t, h2⟩

lemma replGo_congr (p r : Str) :
    ∀ (f₁ f₂ : Nat) (s : Str), s.length ≤ f₁ → s.length ≤ f₂ →
      replGo p r f₁ s = replGo p r f₂ s := by
  intro f₁
  induction f₁ with
  | zero =>
    intro f₂ s h₁ _
    cases s with
    | nil => cases f₂ <;> rfl
    | cons c s' => simp at h₁
  | succ f ih =>
    intro f₂ s h₁ h₂
    cases s with
    | nil => cases f₂ <;> rfl
    | cons c s' =>
      cases f₂ with
      | zero => simp at h₂
      | succ f₂' =>
        simp only [replGo]
        by_cases hm : isPre p (c :: s') = true
        · rw [if_pos hm, if_pos hm,
            ih f₂' (s'.drop (p.length - 1))
              (by simp only [List.length_drop]; simp at h₁; omega)
              (by simp only [List.length_drop]; simp at h₂; omega)]
        · rw [if_neg (by simp [hm]), if_neg (by simp [hm]),
            ih f₂' s' (by simp at h₁; omega) (by simp at h₂; omega)]

lemma repl_nil (p r : Str) : repl p r [] = [] := rfl

lemma repl_cons_pos (p r : Str) (c : Char) (s : Str)
    (h : isPre p (c :: s) = true) :
    repl p r (c :: s) = r ++ repl p r (s.drop (p.length - 1)) := by
  show replGo p r (s.length + 1) (c :: s) = _
  simp only [replGo]
  rw [if_pos h]
  congr 1
  exact replGo_congr p r s.length (s.drop (p.length - 1)).length _
    (by simp [List.length_drop]) le_rfl

lemma repl_cons_neg (p r : Str) (c : Char) (s : Str)
    (h : isPre p (c :: s) = false) :
    repl p r (c :: s) = c :: repl p r s := by
  show replGo p r (s.length + 1) (c :: s) = _
  simp only [replGo]
  rw [if_neg (by simp [h])]
  rfl

lemma repl_append_self (p r w : Str) (hp : p ≠ []) :
    repl p r (p ++ w) = r ++ repl p r w := by
  cases p with
  | nil => exact absurd rfl hp
  | cons a p' =>
    have h := repl_cons_pos (a :: p') r a (p' ++ w)
      (by simpa using isPre_append_self (a :: p') w)
    simpa [List.drop_left] using h

lemma jsIncludes_cons (p : Str) (c : Char) (s : Str) :
    jsIncludes p (c :: s) = (isPre p (c :: s) || jsIncludes p s) := rfl

lemma repl_of_not_includes (p r s : Str) (h : jsIncludes p s = false) :
    repl p r s = s := by
  induction s with
  | nil => exact repl_nil p r
  | cons c s' ih =>
    rw [jsIncludes_cons, Bool.or_eq_false_iff] at h
    rw [repl_cons_neg p r c s' h.1, ih h.2]

lemma jsReplaceAll_ne_nil (p r s : Str) (hp : p ≠ []) :
    jsReplaceAll p r s = repl p r s := by
  cases p with
  | nil => exact absurd rfl hp
  | cons a p' => rfl

lemma mem_replGo (p r : Str) :
    ∀ (f : Nat) (s : Str), s.length ≤ f → ∀ x ∈ replGo p r f s, x ∈ s ∨ x ∈ r := by
  intro f
  induction f with
  | zero =>
    intro s hs x hx
    cases s with
    | nil => simp [replGo] at hx
    | cons c s' => simp at hs
  | succ f ih =>
    intro s hs x hx
    cases s with
    | nil => simp [replGo] at hx
    | cons c s' =>
      simp only [replGo] at hx
      by_cases hm : isPre p (c :: s') = true
      · rw [if_pos hm] at hx
        rcases List.mem_append.mp hx with hr | hrec
        · exact Or.inr hr
        · rcases ih (s'.drop (p.length - 1))
            (by simp only [List.length_drop]; simp at hs; omega) x hrec with h1 | h2
          · exact Or.inl (List.mem_cons_of_mem _ (List.drop_subset _ _ h1))
          · exact Or.inr h2
      · rw [if_neg (by simp [hm])] at hx
        rcases List.mem_cons.mp hx with rfl | hrec
        · exact Or.inl (List.mem_cons_self _ _)
        · rcases ih s' (by simp at hs; omega) x hrec with h1 | h2
          · exact Or.inl (List.mem_cons_of_mem _ h1)
          · exact Or.inr h2

lemma mem_repl (p r s : Str) (x : Char) (hx : x ∈ repl p r s) : x ∈ s ∨ x ∈ r :=
  mem_replGo p r s.length s le_rfl x hx

lemma mem_jsReplaceAll (p r s : Str) (x : Char) (hx : x ∈ jsReplaceAll p r s) :
    x ∈ s ∨ x ∈ r := by
  cases p with
  | nil =>
    simp only [jsReplaceAll] at hx
    rcases List.mem_append.mp hx with hr | hfm
    · exact Or.inr hr
    · rcases List.mem_flatMap.mp hfm with ⟨c, hc, hcx⟩
      rcases List.mem_cons.mp hcx with rfl | hr
      · exact Or.inl hc
      · exact Or.inr hr
  | cons a p' => exact mem_repl _ r s x hx

/-! ## Structure of the line formatter -/

lemma foldl_append_eq {α β : Type} (f : α → List β) :
    ∀ (l : List α) (acc : List β),
      l.foldl (fun a x => a ++ f x) acc = acc ++ (l.map f).flatten := by
  intro l
  induction l with
  | nil => intro acc; simp
  | cons x l' ih => intro acc; simp [ih, List.append_assoc]

lemma getLineString_eq (cfg : Config) (values : List Str) :
    getLineString cfg values =
      (values.flatMap
        (fun v => cfg.quote ++ escapeValue cfg v ++ cfg.quote ++ cfg.delimiter)).dropLast
        ++ cfg.newLine := by
  unfold getLineString
  rw [show (fun (line : Str) v =>
      line ++ cfg.quote ++ escapeValue cfg v ++ cfg.quote ++ cfg.delimiter) =
      fun (line : Str) v =>
      line ++ (cfg.quote ++ escapeValue cfg v ++ cfg.quote ++ cfg.delimiter) by
    funext line v
    simp [List.append_assoc]]
  rw [foldl_append_eq]
  simp [List.flatMap_def]

/-! ## Claim theorems -/

/-- C1: for every configuration and value, the line formatter escapes a
value by replacing every occurrence of the quote string with
escape + quote (the guard makes this replacement exactly when the value
contains the quote; on a value not containing it the value passes
through literally, so embedded delimiter and newLine characters are
untouched); in particular, with escape "-" and the default quote, the
values `"1"` and `"te,st\n` produce the record line
`"-"1-"","-"te,st\n"` followed by newLine. -/
theorem escape_replaces_every_quote_occurrence :
    (∀ (cfg : Config) (v : Str),
      escapeValue cfg v = jsReplaceAll cfg.quote (cfg.escape ++ cfg.quote) v) ∧
    (∀ (cfg : Config) (v : Str),
      jsIncludes cfg.quote v = false → escapeValue cfg v = v) ∧
    getLineString { defaultConfig with escape := "-".data }
        ["\"1\"".data, "\"te,st\n".data] =
      "\"-\"1-\"\",\"-\"te,st\n\"\n".data := by
  refine ⟨?_, ?_, by decide⟩
  · intro cfg v
    unfold escapeValue
    by_cases h : jsIncludes cfg.quote v = true
    · rw [if_pos h]
    · have hf : jsIncludes cfg.quote v = false := by
        cases hb : jsIncludes cfg.quote v
        · rfl
        · exact absurd hb h
      rw [if_neg (by simp [hf])]
      have hq : cfg.quote ≠ [] := by
        intro hnil
        rw [hnil] at hf
        cases v <;> simp [jsIncludes, isPre] at hf
      rw [jsReplaceAll_ne_nil _ _ _ hq, repl_of_not_includes _ _ _ hf]
  · intro cfg v h
    unfold escapeValue
    rw [if_neg (by simp [h])]

/-- C1 witness: the pass-through conjunct applied at the default
configuration and the quote-free value "test". -/
theorem escape_replaces_every_quote_occurrence_witness :
    jsIncludes defaultConfig.quote "test".data = false ∧
      escapeValue defaultConfig "test".data = "test".data :=
  ⟨by decide,
    escape_replaces_every_quote_occurrence.2.1 defaultConfig "test".data (by decide)⟩

/-- C4: `generateRecordString` returns the concatenation of the `n`
record lines, with no header line, and returns the empty string for
`n = 0`.  (The embedding is a pure function: the source method only
builds and returns a string, performing no stream operation.) -/
theorem generateRecordString_is_concat_of_record_lines :
    ∀ (cfg : Config) (sch : Schema) (n : Nat),
      generateRecordString cfg sch n =
        ((List.range n).map (getRecordLine cfg sch)).flatten ∧
      generateRecordString cfg sch 0 = [] := by
  intro cfg sch n
  constructor
  · unfold generateRecordString
    rw [foldl_append_eq]
    rfl
  · rfl

/-- C6: applied to an empty list of values the line formatter returns
exactly newLine (the trailing trim on the empty accumulator is a no-op),
and a zero-column schema with header enabled yields a header line equal
to newLine — every written line of such a schema is just newLine, and no
error arises (the embedding is total). -/
theorem empty_values_line_is_newline :
    ∀ (cfg : Config) (sch : Schema) (n : Nat),
      getLineString cfg [] = cfg.newLine ∧
      (sch.keys = [] → cfg.header = true →
        writeRecordsToStream cfg sch n = List.replicate (n + 1) cfg.newLine) := by
  intro cfg sch n
  have hline : getLineString cfg [] = cfg.newLine := by
    simp [getLineString]
  refine ⟨hline, ?_⟩
  intro hk hh
  unfold writeRecordsToStream
  rw [if_pos hh]
  have hhead : getHeaderLine cfg sch = cfg.newLine := by
    unfold getHeaderLine
    rw [hk]
    exact hline
  have hrec : ∀ i, getRecordLine cfg sch i = cfg.newLine := by
    intro i
    unfold getRecordLine
    rw [hk]
    exact hline
  calc [getHeaderLine cfg sch] ++ (List.range n).map (getRecordLine cfg sch)
      = [cfg.newLine] ++ (List.range n).map (fun _ => cfg.newLine) := by
        rw [hhead]
        congr 1
        exact List.map_congr_left (fun i _ => hrec i)
    _ = List.replicate (n + 1) cfg.newLine := by
        simp [List.map_const', List.replicate_succ]

/-- C6 witness: the zero-column schema with the default configuration
(header enabled) and two records produces three lines, each exactly
newLine. -/
theorem empty_values_line_is_newline_witness :
    ((⟨[], fun _ _ => []⟩ : Schema).keys = [] ∧ defaultConfig.header = true) ∧
      writeRecordsToStream defaultConfig ⟨[], fun _ _ => []⟩ 2 =
        List.replicate 3 defaultConfig.newLine :=
  ⟨⟨rfl, rfl⟩,
    (empty_values_line_is_newline defaultConfig ⟨[], fun _ _ => []⟩ 2).2 rfl rfl⟩

/-- C9: `generateToStream` never finalizes the caller-supplied sink (its
event trace contains no `sinkEnd`), whereas `generate` always finalizes
the sink it created itself for the destination path (its trace contains
`sinkEnd`). -/
theorem generateToStream_never_ends_sink :
    ∀ (cfg : Config) (sch : Schema) (recordNum : Int),
      WriterEvent.sinkEnd ∉ generateToStreamEvents cfg sch recordNum ∧
      WriterEvent.sinkEnd ∈ generateEvents cfg sch recordNum := by
  intro cfg sch recordNum
  constructor
  · intro h
    by_cases hl : cfg.logging <;>
      simp [generateToStreamEvents, hl, List.mem_map] at h
  · by_cases hl : cfg.logging <;>
      simp [generateEvents, hl, List.mem_append]

lemma length_flatMap_cons (e : Str) (v : Str) :
    (v.flatMap (fun c => c :: e)).length = v.length * (e.length + 1) := by
  induction v with
  | nil => simp
  | cons c v' ih => simp [ih]; ring

/-- C10: with an empty quote string, every value contains the quote as a
substring, and JS `replaceAll` with an empty pattern matches at every
character boundary; a value of length n therefore becomes n+1 copies of
the escape interleaved with the value's characters — in particular, for
a nonempty escape the value is not passed through unchanged. -/
theorem empty_quote_interleaves_escape :
    ∀ (cfg : Config) (v : Str), cfg.quote = [] →
      escapeValue cfg v = cfg.escape ++ v.flatMap (fun c => c :: cfg.escape) ∧
      (cfg.escape ≠ [] → escapeValue cfg v ≠ v) := by
  intro cfg v hq
  have hesc : escapeValue cfg v = cfg.escape ++ v.flatMap (fun c => c :: cfg.escape) := by
    unfold escapeValue
    rw [if_pos (by simp [hq, jsIncludes_cons, isPre]; cases v <;> simp [jsIncludes, isPre])]
    rw [hq]
    simp [jsReplaceAll]
  refine ⟨hesc, ?_⟩
  intro he hcontra
  have h0 : 0 < cfg.escape.length := by
    cases hx : cfg.escape with
    | nil => exact absurd hx he
    | cons a t => simp [hx]
  have hL := congrArg List.length (hesc.symm.trans hcontra)
  rw [List.length_append, length_flatMap_cons] at hL
  have hge : v.length * (cfg.escape.length + 1) ≥ v.length * 1 :=
    Nat.mul_le_mul_left _ (by omega)
  omega

/-- C10 witness: the theorem applied at a configuration with empty quote
and escape "-" on the value "ab", giving "-a-b-". -/
theorem empty_quote_interleaves_escape_witness :
    ({ defaultConfig with quote := [] } : Config).quote = [] ∧
      escapeValue { defaultConfig with quote := [] } "ab".data =
        ({ defaultConfig with quote := [] } : Config).escape ++
          ("ab".data).flatMap
            (fun c => c :: ({ defaultConfig with quote := [] } : Config).escape) :=
  ⟨rfl, (empty_quote_interleaves_escape { defaultConfig with quote := [] } "ab".data rfl).1⟩

/-- C2 counterexample: with the two-character delimiter ";;" the source's
`line.slice(0, -1)` removes only one character, not the whole trailing
delimiter: the line for values "a", "b" is `"a";;"b";` + newLine, which
differs from the join-by-delimiter line the claim describes. -/
theorem trailing_trim_multichar_delimiter_cex :
    getLineString { defaultConfig with delimiter := ";;".data }
        ["a".data, "b".data] = "\"a\";;\"b\";\n".data ∧
      getLineString { defaultConfig with delimiter := ";;".data }
          ["a".data, "b".data] ≠
        specFormatLine { defaultConfig with delimiter := ";;".data }
          ["a".data, "b".data] := by
  constructor
  · decide
  · decide

lemma dropLast_flatMap_concat {α β : Type} (w : α → List β) (dc : β) :
    ∀ (values : List α), values ≠ [] →
      (values.flatMap (fun v => w v ++ [dc])).dropLast =
        List.intercalate [dc] (values.map w) := by
  intro values
  induction values with
  | nil => intro h; exact absurd rfl h
  | cons v rest ih =>
    intro _
    cases rest with
    | nil =>
      simp [List.intercalate, List.intersperse, List.dropLast_concat]
    | cons v' rest' =>
      have hne : (v' :: rest').flatMap (fun v => w v ++ [dc]) ≠ [] := by
        simp [List.flatMap_cons]
      have step : ((v :: v' :: rest').flatMap (fun v => w v ++ [dc])).dropLast =
          (w v ++ [dc]) ++ ((v' :: rest').flatMap (fun v => w v ++ [dc])).dropLast := by
        rw [List.flatMap_cons]
        cases hx : (v' :: rest').flatMap (fun v => w v ++ [dc]) with
        | nil => exact absurd hx hne
        | cons y ys => rw [List.dropLast_append_cons]
      rw [step, ih (by simp)]
      simp [List.intercalate, List.intersperse, List.append_assoc]

/-- C2 amended: the formatter removes exactly one trailing character
(`line.slice(0, -1)`), which coincides with removing the trailing
delimiter exactly when the delimiter is a single character; under that
condition, for every nonempty value list, the line is the
quoted-and-escaped values joined by the delimiter followed by newLine. -/
theorem line_is_delimited_join_of_singleton_delimiter :
    ∀ (cfg : Config) (values : List Str), values ≠ [] →
      cfg.delimiter.length = 1 →
      getLineString cfg values = specFormatLine cfg values := by
  intro cfg values hne hlen
  obtain ⟨dc, hd⟩ : ∃ dc, cfg.delimiter = [dc] := by
    cases hdel : cfg.delimiter with
    | nil => rw [hdel] at hlen; simp at hlen
    | cons d t =>
      cases t with
      | nil => exact ⟨d, rfl⟩
      | cons d' t' => rw [hdel] at hlen; simp at hlen
  rw [getLineString_eq, specFormatLine, hd]
  have hfun : (fun v => cfg.quote ++ escapeValue cfg v ++ cfg.quote ++ [dc]) =
      fun v => (cfg.quote ++ escapeValue cfg v ++ cfg.quote) ++ [dc] := by
    funext v
    simp [List.append_assoc]
  rw [hfun, dropLast_flatMap_concat
    (fun v => cfg.quote ++ escapeValue cfg v ++ cfg.quote) dc values hne]

/-- C2 witness: the amended theorem applied at the default configuration
(single-character delimiter ",") and the nonempty value list ["x"]. -/
theorem line_is_delimited_join_of_singleton_delimiter_witness :
    ((["x".data] : List Str) ≠ [] ∧ defaultConfig.delimiter.length = 1) ∧
      getLineString defaultConfig ["x".data] =
        specFormatLine defaultConfig ["x".data] :=
  ⟨⟨by decide, by decide⟩,
    line_is_delimited_join_of_singleton_delimiter defaultConfig ["x".data]
      (by decide) (by decide)⟩

/-- C5 counterexample: at recordCount -1 the generation functions do not
fail with an InvalidArgument error; the loop guard simply fails at once,
so `generateRecordString` returns the empty string and the stream writer
writes only the header — both results are ordinary `Except.ok` values. -/
theorem negative_recordCount_no_error_cex :
    generateRecordStringE defaultConfig ⟨["a".data], fun _ _ => "x".data⟩ (-1) =
        Except.ok [] ∧
      writeRecordsToStreamE defaultConfig ⟨["a".data], fun _ _ => "x".data⟩ (-1) =
        Except.ok [getHeaderLine defaultConfig ⟨["a".data], fun _ _ => "x".data⟩] := by
  constructor
  · rfl
  · rfl

/-- C5 amended: a negative recordCount is silently treated as zero — the
`for` loop of the source never executes its body, no error is raised,
`generateRecordString` returns the empty string, and the stream writer
writes only the optional header line. -/
theorem negative_recordCount_silently_empty :
    ∀ (cfg : Config) (sch : Schema) (recordNum : Int), recordNum < 0 →
      generateRecordStringE cfg sch recordNum = Except.ok [] ∧
      writeRecordsToStreamE cfg sch recordNum =
        Except.ok (if cfg.header then [getHeaderLine cfg sch] else []) := by
  intro cfg sch recordNum hneg
  have h0 : recordNum.toNat = 0 := Int.toNat_of_nonpos (le_of_lt hneg)
  constructor
  · unfold generateRecordStringE generateRecordStringI
    rw [h0]
    rfl
  · unfold writeRecordsToStreamE writeRecordsToStreamI
    rw [h0]
    simp [writeRecordsToStream]

/-- C5 witness: the amended theorem applied at recordCount -5. -/
theorem negative_recordCount_silently_empty_witness :
    ((-5 : Int) < 0) ∧
      generateRecordStringE defaultConfig ⟨["a".data], fun _ _ => "x".data⟩ (-5) =
        Except.ok [] :=
  ⟨by decide,
    (negative_recordCount_silently_empty defaultConfig
      ⟨["a".data], fun _ _ => "x".data⟩ (-5) (by decide)).1⟩

lemma not_mem_escapeValue (cfg : Config) (c : Char) (v : Str)
    (hv : c ∉ v) (hq : c ∉ cfg.quote) (he : c ∉ cfg.escape) :
    c ∉ escapeValue cfg v := by
  unfold escapeValue
  by_cases hin : jsIncludes cfg.quote v = true
  · rw [if_pos hin]
    intro hmem
    rcases mem_jsReplaceAll _ _ _ _ hmem with h1 | h2
    · exact hv h1
    · rcases List.mem_append.mp h2 with h3 | h4
      · exact he h3
      · exact hq h4
  · rw [if_neg hin]
    exact hv

lemma count_getLineString (cfg : Config) (c : Char) (values : List Str)
    (hnl : cfg.newLine = [c]) (hq : c ∉ cfg.quote) (hd : c ∉ cfg.delimiter)
    (he : c ∉ cfg.escape) (hv : ∀ v ∈ values, c ∉ v) :
    (getLineString cfg values).count c = 1 ∧
      ∃ t, getLineString cfg values = t ++ cfg.newLine := by
  rw [getLineString_eq]
  refine ⟨?_, _, rfl⟩
  have hbody : c ∉ values.flatMap
      (fun v => cfg.quote ++ escapeValue cfg v ++ cfg.quote ++ cfg.delimiter) := by
    intro hmem
    rcases List.mem_flatMap.mp hmem with ⟨v, hvmem, hin⟩
    simp only [List.mem_append] at hin
    rcases hin with ((h1 | h2) | h3) | h4
    · exact hq h1
    · exact not_mem_escapeValue cfg c v (hv v hvmem) hq he h2
    · exact hq h3
    · exact hd h4
  rw [List.count_append, hnl,
    List.count_eq_zero.mpr (fun hmem => hbody (List.dropLast_subset _ hmem))]
  simp

lemma count_flatten_ones (c : Char) (L : List Str)
    (h : ∀ ch ∈ L, ch.count c = 1) : L.flatten.count c = L.length := by
  induction L with
  | nil => simp
  | cons ch L' ih =>
    simp only [List.flatten_cons, List.count_append, List.length_cons]
    rw [h ch (List.mem_cons_self _ _),
      ih (fun x hx => h x (List.mem_cons_of_mem _ hx))]
    omega

/-- C3 counterexample: with a generator whose value contains the newLine
sequence, the claim's per-line accounting fails — for one record with
header enabled the output `"a"\n"x\ny"\n` contains three occurrences of
newLine, not the claimed 1 + 1 = 2. -/
theorem line_count_embedded_newline_cex :
    (csvOutput defaultConfig ⟨["a".data], fun _ _ => "x\ny".data⟩ 1).count '\n' = 3 ∧
      ¬ ((csvOutput defaultConfig ⟨["a".data], fun _ _ => "x\ny".data⟩ 1).count '\n' =
          (if defaultConfig.header then 1 else 0) + 1) := by
  constructor
  · decide
  · decide

/-- C3 amended: the writers always issue exactly
(1 if header else 0) + n sink writes, unconditionally; and when the
newLine string is a single character occurring in no configuration
string, no header key and no generated value, the delivered text
contains exactly that many newLine occurrences, each chunk ending with
newLine.  With newLine embedded in a value the per-line accounting of
the original claim fails (see the counterexample). -/
theorem line_count_of_newline_free_values :
    ∀ (cfg : Config) (sch : Schema) (n : Nat),
      (writeRecordsToStream cfg sch n).length = (if cfg.header then 1 else 0) + n ∧
      ∀ (c : Char),
        cfg.newLine = [c] → c ∉ cfg.quote → c ∉ cfg.delimiter → c ∉ cfg.escape →
        (∀ k ∈ sch.keys, c ∉ k) →
        (∀ i, i < n → ∀ k ∈ sch.keys, c ∉ sch.gen k i) →
        (csvOutput cfg sch n).count c = (if cfg.header then 1 else 0) + n ∧
        (∀ chunk ∈ writeRecordsToStream cfg sch n, ∃ t, chunk = t ++ cfg.newLine) := by
  intro cfg sch n
  constructor
  · unfold writeRecordsToStream
    by_cases hcfg : cfg.header
    · simp [hcfg]
      omega
    · simp [hcfg]
  intro c hnl hq hd he hkeys hgen
  have hchunk : ∀ chunk ∈ writeRecordsToStream cfg sch n,
      chunk.count c = 1 ∧ ∃ t, chunk = t ++ cfg.newLine := by
    intro chunk hmem
    unfold writeRecordsToStream at hmem
    rcases List.mem_append.mp hmem with hh | hr
    · have hc : chunk = getHeaderLine cfg sch := by
        by_cases hcfg : cfg.header
        · rw [if_pos hcfg] at hh
          simpa using hh
        · rw [if_neg hcfg] at hh
          simp at hh
      rw [hc]
      exact count_getLineString cfg c sch.keys hnl hq hd he hkeys
    · rcases List.mem_map.mp hr with ⟨i, hi, rfl⟩
      have hi' : i < n := List.mem_range.mp hi
      unfold getRecordLine
      refine count_getLineString cfg c _ hnl hq hd he ?_
      intro v hvm
      rcases List.mem_map.mp hvm with ⟨k, hk, rfl⟩
      exact hgen i hi' k hk
  refine ⟨?_, fun chunk hmem => (hchunk chunk hmem).2⟩
  unfold csvOutput
  rw [count_flatten_ones c _ (fun ch h => (hchunk ch h).1)]
  unfold writeRecordsToStream
  by_cases hcfg : cfg.header
  · simp [hcfg]
    omega
  · simp [hcfg]

/-- C3 witness: the amended theorem at the default configuration and a
one-column schema with newLine-free values and two records: three sink
writes, and the delivered text contains exactly 1 + 2 = 3 newLine
characters. -/
theorem line_count_of_newline_free_values_witness :
    defaultConfig.newLine = ['\n'] ∧
      (writeRecordsToStream defaultConfig ⟨["a".data], fun _ _ => "x".data⟩ 2).length =
        (if defaultConfig.header then 1 else 0) + 2 ∧
      (csvOutput defaultConfig ⟨["a".data], fun _ _ => "x".data⟩ 2).count '\n' =
        (if defaultConfig.header then 1 else 0) + 2 :=
  ⟨by decide,
    (line_count_of_newline_free_values defaultConfig
      ⟨["a".data], fun _ _ => "x".data⟩ 2).1,
    ((line_count_of_newline_free_values defaultConfig
      ⟨["a".data], fun _ _ => "x".data⟩ 2).2 '\n' (by decide) (by decide) (by decide)
      (by decide) (by decide)
      (fun _ _ _ _ => (by decide : '\n' ∉ "x".data))).1⟩

lemma progressReports_append (a b : List WriterEvent) :
    progressReports (a ++ b) = progressReports a ++ progressReports b :=
  List.filterMap_append a b _

lemma progressReports_map_sinkWrite (L : List Str) :
    progressReports (L.map WriterEvent.sinkWrite) = [] := by
  induction L with
  | nil => rfl
  | cons ch L' ih =>
    simp only [List.map_cons, progressReports, List.filterMap_cons] at ih ⊢
    exact ih

lemma progressReports_generate (cfg : Config) (sch : Schema) (recordNum : Int) :
    progressReports (generateEvents cfg sch recordNum) = [] ∧
      progressReports (generateToStreamEvents cfg sch recordNum) = [] := by
  unfold generateEvents generateToStreamEvents
  by_cases hl : cfg.logging <;>
    simp [hl, progressReports_append, progressReports_map_sinkWrite,
      progressReports, List.filterMap_cons]

lemma progressReports_legacy_loop (t : Int) (f : Nat → Str) :
    ∀ (L : List Nat),
      progressReports (L.flatMap (fun i =>
        [WriterEvent.sinkWrite (f i)] ++
          (if i % 10000 = 0 then [WriterEvent.progress (i : Int) t] else []))) =
        (L.filter (fun i => decide (i % 10000 = 0))).map
          (fun i => ((i : Int), t)) := by
  intro L
  induction L with
  | nil => rfl
  | cons i L' ih =>
    rw [List.flatMap_cons, progressReports_append, ih]
    by_cases hi : i % 10000 = 0
    · simp [hi, progressReports, List.filterMap_cons, List.filter_cons]
    · simp [hi, progressReports, List.filterMap_cons, List.filter_cons]

/-- C8 counterexample: with logging enabled and 20000 records, the
current writer's `generate` and `generateToStream` traces contain no
progress report whatsoever — `writeRecordsToStream` (the loop both
operations share) has no progress call. -/
theorem no_progress_reporting_cex :
    ({ defaultConfig with logging := true } : Config).logging = true ∧
      progressReports (generateEvents { defaultConfig with logging := true }
        ⟨["a".data], fun _ _ => "x".data⟩ 20000) = [] ∧
      progressReports (generateToStreamEvents { defaultConfig with logging := true }
        ⟨["a".data], fun _ _ => "x".data⟩ 20000) = [] :=
  ⟨rfl, (progressReports_generate _ _ _).1, (progressReports_generate _ _ _).2⟩

/-- C8 amended: the current writer emits no progress reports at all
during `generate` or `generateToStream`; only the legacy writer reports
progress, and it does so unconditionally (it has no logging option),
after the records with index i ≡ 0 (mod 10000) — i.e. after the 1st,
10001st, ... record — reporting (i, recordNum), plus one final
(recordNum, recordNum) report after the stream is ended. -/
theorem progress_reporting_only_in_legacy :
    ∀ (cfg : Config) (sch : Schema) (recordNum : Int),
      progressReports (generateEvents cfg sch recordNum) = [] ∧
      progressReports (generateToStreamEvents cfg sch recordNum) = [] ∧
      progressReports (legacyGenerateEvents cfg sch recordNum) =
        ((List.range recordNum.toNat).filter (fun i => decide (i % 10000 = 0))).map
          (fun i => ((i : Int), recordNum)) ++ [(recordNum, recordNum)] := by
  intro cfg sch recordNum
  refine ⟨(progressReports_generate cfg sch recordNum).1,
    (progressReports_generate cfg sch recordNum).2, ?_⟩
  unfold legacyGenerateEvents
  rw [progressReports_append, progressReports_append, progressReports_append,
    progressReports_legacy_loop recordNum
      (fun i => legacyGetLineString cfg (sch.keys.map (fun k => sch.gen k i)))]
  by_cases hh : cfg.header <;>
    simp [hh, progressReports, List.filterMap_cons]

/-! ## Invertibility of the escaping (single-character quote) -/

lemma single_char_repl (qc : Char) (r : Str) :
    ∀ v : Str, repl [qc] r v = v.flatMap (fun c => if c = qc then r else [c]) := by
  intro v
  induction v with
  | nil => exact repl_nil _ _
  | cons c v' ih =>
    by_cases hc : c = qc
    · subst hc
      rw [repl_cons_pos [c] r c v' (by simp [isPre])]
      simp only [List.length_singleton, Nat.sub_self, List.drop_zero]
      rw [ih]
      simp [List.flatMap_cons]
    · rw [repl_cons_neg [qc] r c v'
        (by simp [isPre, beq_eq_false_iff_ne]; exact fun h => hc h.symm)]
      rw [ih]
      simp [List.flatMap_cons, hc]

lemma exists_small_index (e : Str) (k : Nat) (qc : Char) (hk : 0 < k)
    (hper : ∀ j, k ≤ j → j < e.length → e[j]? = e[j - k]?) :
    ∀ j, j < e.length → e[j]? = some qc → qc ∈ e.take k := by
  intro j
  induction j using Nat.strong_induction_on with
  | _ j ih =>
    intro hj hq
    by_cases hjk : j < k
    · have h1 : (e.take k)[j]? = some qc := by
        rw [List.getElem?_take, if_pos hjk]
        exact hq
      exact List.getElem?_mem h1
    · exact ih (j - k) (by omega) (by omega) ((hper j (by omega) hj).symm.trans hq)

lemma no_pre_of_suffix (qc : Char) (e : Str) :
    ∀ (v : Str) (k : Nat), 1 ≤ k → k ≤ e.length → qc ∉ e.take k →
      isPre (e.drop k ++ [qc])
        (v.flatMap (fun c => if c = qc then e ++ [qc] else [c])) = false := by
  intro v
  induction v with
  | nil =>
    intro k _ _ _
    cases hs : e.drop k with
    | nil => simp [isPre]
    | cons a s => simp [isPre]
  | cons d v' ih =>
    intro k hk1 hke hqk
    by_cases hd : d = qc
    · rw [List.flatMap_cons, if_pos hd]
      cases hb : isPre (e.drop k ++ [qc])
          ((e ++ [qc]) ++ v'.flatMap (fun c => if c = qc then e ++ [qc] else [c])) with
      | false => rfl
      | true =>
        exfalso
        rcases (isPre_iff _ _).mp hb with ⟨t, ht⟩
        have hlen1 : (e.drop k ++ [qc]).length = (e.length - k) + 1 := by
          simp
        have heq : e.drop k ++ [qc] = e.take (e.length - k + 1) := by
          have h1 : ((e.drop k ++ [qc]) ++ t).take (e.length - k + 1) =
              e.drop k ++ [qc] := by
            rw [← hlen1, List.take_left]
          have h2 : ((e ++ [qc]) ++ v'.flatMap
              (fun c => if c = qc then e ++ [qc] else [c])).take (e.length - k + 1) =
              e.take (e.length - k + 1) := by
            rw [List.append_assoc, List.take_append_of_le_length (by omega)]
          rw [← ht, h2] at h1
          exact h1.symm
        have hdrop : e.drop k = e.take (e.length - k) := by
          have h3 := congrArg (List.take (e.length - k)) heq
          rw [List.take_take] at h3
          have h4 : (e.drop k ++ [qc]).take (e.length - k) = e.drop k := by
            have h5 : e.length - k = (e.drop k).length := by simp
            rw [h5, List.take_left]
          have hmin : (e.length - k) ⊓ (e.length - k + 1) = e.length - k := by omega
          rw [h4, hmin] at h3
          exact h3
        have hmlt : e.length - k < e.length := by omega
        have hqm : e[e.length - k]? = some qc := by
          rw [List.take_succ, hdrop] at heq
          have h6 := List.append_cancel_left heq
          cases hx : e[e.length - k]? with
          | none => rw [hx] at h6; simp at h6
          | some x =>
            rw [hx] at h6
            simp at h6
            subst h6
            rfl
        have hper : ∀ j, k ≤ j → j < e.length → e[j]? = e[j - k]? := by
          intro j hkj hj
          have h7 := congrArg (fun l => l[j - k]?) hdrop
          simp only [List.getElem?_drop, List.getElem?_take] at h7
          rw [if_pos (by omega : j - k < e.length - k)] at h7
          have h8 : k + (j - k) = j := by omega
          rw [h8] at h7
          exact h7
        exact hqk (exists_small_index e k qc (by omega) hper (e.length - k) hmlt hqm)
    · rw [List.flatMap_cons, if_neg hd, List.singleton_append]
      cases hs : e.drop k with
      | nil =>
        simp only [List.nil_append, isPre]
        rw [beq_eq_false_iff_ne.mpr (fun h => hd h.symm)]
        rfl
      | cons s0 s' =>
        simp only [List.cons_append, isPre, List.append_eq, List.nil_append]
        by_cases hs0 : s0 = qc
        · rw [hs0, beq_eq_false_iff_ne.mpr (fun h => hd h.symm)]
          rfl
        · have hk2 : k < e.length := by
            by_contra hcon
            rw [List.drop_eq_nil_iff.mpr (by omega)] at hs
            exact List.noConfusion hs
          have hs' : e.drop (k + 1) = s' := by
            rw [← List.tail_drop, hs]
            rfl
          have htk : qc ∉ e.take (k + 1) := by
            rw [List.take_succ]
            intro hmem
            rcases List.mem_append.mp hmem with h1 | h2
            · exact hqk h1
            · rw [← List.head?_drop, hs] at h2
              simp at h2
              exact hs0 h2.symm
          have hn := ih (k + 1) (by omega) (by omega) htk
          rw [hs'] at hn
          rw [hn]
          simp

lemma roundtrip_single (qc : Char) (e : Str) :
    ∀ v : Str,
      repl (e ++ [qc]) [qc]
        (v.flatMap (fun c => if c = qc then e ++ [qc] else [c])) = v := by
  intro v
  induction v with
  | nil => exact repl_nil _ _
  | cons d v' ih =>
    by_cases hd : d = qc
    · subst hd
      rw [List.flatMap_cons, if_pos rfl,
        repl_append_self (e ++ [d]) [d] _ (by simp), ih]
      rfl
    · rw [List.flatMap_cons, if_neg hd, List.singleton_append]
      have hnomatch : isPre (e ++ [qc])
          (d :: v'.flatMap (fun c => if c = qc then e ++ [qc] else [c])) = false := by
        cases e with
        | nil =>
          simp only [List.nil_append, isPre]
          rw [beq_eq_false_iff_ne.mpr (fun h => hd h.symm)]
          rfl
        | cons e0 e₂ =>
          by_cases he0 : e0 = qc
          · simp only [List.cons_append, isPre]
            rw [he0, beq_eq_false_iff_ne.mpr (fun h => hd h.symm)]
            rfl
          · have hn := no_pre_of_suffix qc (e0 :: e₂) v' 1 le_rfl (by simp)
              (by
                intro hmem
                simp at hmem
                exact he0 hmem.symm)
            simp only [List.drop_succ_cons, List.drop_zero] at hn
            simp only [List.cons_append] at hn ⊢
            simp only [isPre, List.append_eq, List.nil_append]
            rw [hn]
            simp
      rw [repl_cons_neg _ _ _ _ hnomatch, ih]

/-- C7 counterexample: with quote "ba" and escape "a" the value "abba"
(which contains the quote) escapes to "ababa", and reducing escape+quote
("aba") back to the quote yields "baba", not the original value: the
greedy left-to-right reduction consumes a spurious earlier occurrence. -/
theorem escape_roundtrip_cex :
    jsIncludes ({ defaultConfig with quote := "ba".data, escape := "a".data } : Config).quote
        "abba".data = true ∧
      escapeValue { defaultConfig with quote := "ba".data, escape := "a".data }
        "abba".data = "ababa".data ∧
      jsReplaceAll
          (({ defaultConfig with quote := "ba".data, escape := "a".data } : Config).escape ++
            ({ defaultConfig with quote := "ba".data, escape := "a".data } : Config).quote)
          ({ defaultConfig with quote := "ba".data, escape := "a".data } : Config).quote
          (escapeValue { defaultConfig with quote := "ba".data, escape := "a".data }
            "abba".data) ≠ "abba".data := by
  refine ⟨by decide, by decide, by decide⟩

/-- C7 amended: whenever the quote is a single character, replacing
escape+quote in the escaped output back with the quote reproduces every
value containing the quote, for an arbitrary escape string (a spurious
greedy match of escape+quote at a non-aligned position would force
escape+quote to be periodic with the quote character inside its
quote-free prefix, which is impossible); with an empty or multi-character
quote the reduction can differ from the original value (see the
counterexample). -/
theorem escape_roundtrip_single_char_quote :
    ∀ (cfg : Config) (qc : Char) (v : Str),
      cfg.quote = [qc] →
      jsIncludes cfg.quote v = true →
      jsReplaceAll (cfg.escape ++ cfg.quote) cfg.quote (escapeValue cfg v) = v := by
  intro cfg qc v hq hin
  have hesc : escapeValue cfg v =
      v.flatMap (fun c => if c = qc then cfg.escape ++ [qc] else [c]) := by
    unfold escapeValue
    rw [if_pos hin, hq, jsReplaceAll_ne_nil _ _ _ (by simp), single_char_repl]
  rw [hesc, hq, jsReplaceAll_ne_nil _ _ _ (by simp)]
  exact roundtrip_single qc cfg.escape v

/-- C7 witness: the amended theorem at escape "-", default quote, and
the value `"1"`: the escaped value `-"1-"` reduces back to `"1"`. -/
theorem escape_roundtrip_single_char_quote_witness :
    (({ defaultConfig with escape := "-".data } : Config).quote = ['\"'] ∧
      jsIncludes ({ defaultConfig with escape := "-".data } : Config).quote
        "\"1\"".data = true) ∧
      jsReplaceAll
          (({ defaultConfig with escape := "-".data } : Config).escape ++
            ({ defaultConfig with escape := "-".data } : Config).quote)
          ({ defaultConfig with escape := "-".data } : Config).quote
          (escapeValue { defaultConfig with escape := "-".data } "\"1\"".data) =
        "\"1\"".data :=
  ⟨⟨by decide, by decide⟩,
    escape_roundtrip_single_char_quote { defaultConfig with escape := "-".data }
      '\"' "\"1\"".data (by decide) (by decide)⟩
end Mock2CSV
